import Mathlib

/-!
Shallow embedding of `src/order_manager.py`: a discrete-event order
scheduler with bounded-capacity attendants.

Modelling conventions:
* Python `float` times are modelled as `ℚ` (exact arithmetic on the
  simulated time scalar).
* The `heapq` priority queue is modelled as a `List Event` with
  `push` = append and `popMin` = extraction of the earliest event
  (first occurrence among equal times).  `Event` instances compare by
  `time` only (`type`/`data` carry `compare=False` in the source), and
  `heapq` guarantees only that `heappop` returns a smallest element.
* `random.random()` is modelled by an oracle: per arrival a function
  `String → ℚ` giving the tiebreak key drawn for each attendant, and
  across a run a stream `ℕ → String → ℚ` indexed by how many arrival
  events have been handled so far.
* The Python `dict` roster (insertion-ordered, unique keys) is a
  `List Attendant`; `Orchestrator.new` deduplicates names the way a
  dict comprehension would collapse duplicate keys.
* A missing roster key raises `KeyError` in Python; the corresponding
  operation here returns `none` (`UnknownWorkerError`).
-/

namespace OrderSim

/-- The `Event` dataclass: ordered by `time` only; `data` holds the
attendant name for `order_completion` events and is absent for
`order_arrival` events. -/
structure Event where
  time : ℚ
  type : String
  data : Option String
deriving DecidableEq

/-- State of `Attendant.__init__`: per-worker state. -/
structure Attendant where
  name : String
  active_orders : List ℚ
  status : String
  next_available : ℚ
deriving DecidableEq

/-- A fresh attendant: empty orders, status `"active"`, available at 0. -/
def mkAttendant (name : String) : Attendant :=
  { name := name, active_orders := [], status := "active", next_available := 0 }

/-- Refresh, `Attendant.update_state`: drop orders with `t + 5 <= current_time`
(kept iff `t + 5 > current_time`), then recompute `next_available` from
the number of remaining orders. -/
def Attendant.update_state (a : Attendant) (current_time : ℚ) : Attendant :=
  let ao := a.active_orders.filter (fun t => decide (t + 5 > current_time))
  { a with
    active_orders := ao
    next_available :=
      match ao with
      | [] => current_time
      | [s0] => max current_time (s0 + 3)
      | s0 :: s1 :: _ => max (s0 + 5) (s1 + 3) }

/-- Predicate `Attendant.can_accept`: active status, past `next_available`, and
fewer than two active orders. -/
def Attendant.can_accept (a : Attendant) (current_time : ℚ) : Bool :=
  if a.status ≠ "active" then false
  else decide (current_time ≥ a.next_available) && decide (a.active_orders.length < 2)

/-- Accepting, `Attendant.start_order`: append the start time and re-sort ascending. -/
def Attendant.start_order (a : Attendant) (start_time : ℚ) : Attendant :=
  { a with active_orders := (a.active_orders ++ [start_time]).mergeSort (fun x y => decide (x ≤ y)) }

/-- The scheduler (`Orchestrator.__init__`) state. -/
structure Orchestrator where
  attendants : List Attendant
  event_queue : List Event
  current_time : ℚ
  processed : ℕ
  rejected : ℕ
deriving DecidableEq

/-- Roster construction from a list of attendants: the Python dict
comprehension `{a.name: a for a in attendants}` keeps one entry per
name.  `seen` accumulates names already inserted. -/
def dedupRoster : List Attendant → List String → List Attendant
  | [], _ => []
  | a :: rest, seen =>
      if a.name ∈ seen then dedupRoster rest seen
      else a :: dedupRoster rest (a.name :: seen)

/-- Constructor `Scheduler.new(names)`: build the roster of fresh attendants, empty
queue, time 0, both counters 0. -/
def Orchestrator.new (names : List String) : Orchestrator :=
  { attendants := dedupRoster (names.map mkAttendant) []
    event_queue := []
    current_time := 0
    processed := 0
    rejected := 0 }

/-- Submission, `Orchestrator.add_order`: push an `order_arrival` event. -/
def Orchestrator.add_order (s : Orchestrator) (arrival_time : ℚ) : Orchestrator :=
  { s with event_queue := s.event_queue ++ [⟨arrival_time, "order_arrival", none⟩] }

/-- The `Attendant` part of `Orchestrator.update_attendant_status`: set the
status field; when the new status is `"active"`, immediately refresh at
the scheduler's current time. -/
def Attendant.set_status (a : Attendant) (status : String) (current_time : ℚ) : Attendant :=
  let a' := { a with status := status }
  if status == "active" then a'.update_state current_time else a'

/-- Status change, `Orchestrator.update_attendant_status`: `KeyError` (here `none`)
when the name is not a roster key; otherwise update that attendant. -/
def Orchestrator.update_attendant_status (s : Orchestrator) (name status : String) :
    Option Orchestrator :=
  if s.attendants.any (fun a => a.name == name) then
    some { s with
      attendants := s.attendants.map (fun a =>
        if a.name == name then a.set_status status s.current_time else a) }
  else none

/-- Extraction of the earliest event (`heapq.heappop`): a smallest-time
element is removed, first occurrence among ties. -/
def popMin : List Event → Option (Event × List Event)
  | [] => none
  | e :: rest =>
      match popMin rest with
      | none => some (e, [])
      | some (m, rest') =>
          if e.time ≤ m.time then some (e, rest) else some (m, e :: rest')

/-- Candidate entries mirror the Python priority tuples
`((len(active_orders), random()), name)`, compared lexicographically. -/
abbrev Cand := (ℕ ×ₗ ℚ) ×ₗ String

/-- Number of active orders recorded in a candidate entry. -/
def candLen (c : Cand) : ℕ := (ofLex (ofLex c).1).1

/-- Tiebreak key recorded in a candidate entry. -/
def candKey (c : Cand) : ℚ := (ofLex (ofLex c).1).2

/-- Attendant name recorded in a candidate entry. -/
def candName (c : Cand) : String := (ofLex c).2

/-- The roster loop of `Orchestrator.handle_order_arrival`: refresh
every attendant in order; for each attendant passing `can_accept`,
record the priority tuple.  Returns the refreshed roster and the
candidate list. -/
def collectCandidates (current_time : ℚ) (rnd : String → ℚ) :
    List Attendant → List Attendant × List Cand
  | [] => ([], [])
  | a :: rest =>
      let a' := a.update_state current_time
      let (rest', cands) := collectCandidates current_time rnd rest
      if a'.can_accept current_time then
        (a' :: rest', toLex (toLex (a'.active_orders.length, rnd a'.name), a'.name) :: cands)
      else
        (a' :: rest', cands)

/-- Assignment, `Orchestrator.handle_order_arrival`: refresh all attendants and
collect candidates; if any, `min` picks the best priority tuple, the
winner starts the order, `processed` increments and a completion event
is scheduled at `current_time + 5`; otherwise `rejected` increments. -/
def Orchestrator.handle_order_arrival (rnd : String → ℚ) (s : Orchestrator) : Orchestrator :=
  let p := collectCandidates s.current_time rnd s.attendants
  match p.2.min? with
  | some best =>
      { s with
        attendants := p.1.map (fun a =>
          if a.name == candName best then a.start_order s.current_time else a)
        processed := s.processed + 1
        event_queue := s.event_queue ++
          [⟨s.current_time + 5, "order_completion", some (candName best)⟩] }
  | none =>
      { s with attendants := p.1, rejected := s.rejected + 1 }

/-- Completion, `Orchestrator.handle_order_completion`: refresh the named attendant
at the current time. -/
def Orchestrator.handle_order_completion (s : Orchestrator) (attendant_name : String) :
    Orchestrator :=
  { s with
    attendants := s.attendants.map (fun a =>
      if a.name == attendant_name then a.update_state s.current_time else a) }

/-- Termination measure for the event loop: arrivals weigh 2 (they may
push one completion), every other event weighs 1. -/
def qMeasure (q : List Event) : ℕ :=
  (q.map (fun e => if e.type == "order_arrival" then 2 else 1)).sum

theorem popMin_eq_none : ∀ {q : List Event}, popMin q = none → q = [] := by
  intro q h
  cases q with
  | nil => rfl
  | cons a l =>
      simp only [popMin] at h
      cases hm : popMin l with
      | none => rw [hm] at h; simp at h
      | some p =>
          obtain ⟨m, r⟩ := p
          rw [hm] at h
          by_cases hle : a.time ≤ m.time <;> simp [hle] at h

theorem popMin_perm : ∀ {q : List Event} {e : Event} {rest : List Event},
    popMin q = some (e, rest) → q.Perm (e :: rest) := by
  intro q
  induction q with
  | nil => intro e rest h; simp [popMin] at h
  | cons a l ih =>
      intro e rest h
      simp only [popMin] at h
      cases hl : popMin l with
      | none =>
          rw [hl] at h
          have hnil := popMin_eq_none hl
          subst hnil
          simp at h
          simp [h.1, h.2]
      | some p =>
          obtain ⟨m, rest'⟩ := p
          rw [hl] at h
          by_cases hle : a.time ≤ m.time
          · simp [hle] at h
            obtain ⟨h1, h2⟩ := h
            rw [← h1, ← h2]
          · simp [hle] at h
            obtain ⟨h1, h2⟩ := h
            have hperm := ih hl
            have hsw : (a :: l).Perm (m :: a :: rest') :=
              (hperm.cons a).trans (List.Perm.swap m a rest')
            rw [h1, h2] at hsw
            exact hsw

theorem popMin_le : ∀ {q : List Event} {e : Event} {rest : List Event},
    popMin q = some (e, rest) → ∀ x ∈ rest, e.time ≤ x.time := by
  intro q
  induction q with
  | nil => intro e rest h; simp [popMin] at h
  | cons a l ih =>
      intro e rest h
      simp only [popMin] at h
      cases hl : popMin l with
      | none =>
          rw [hl] at h
          have hnil := popMin_eq_none hl
          subst hnil
          simp at h
          obtain ⟨h1, h2⟩ := h
          subst h2
          intro x hx
          simp at hx
      | some p =>
          obtain ⟨m, rest'⟩ := p
          rw [hl] at h
          have hmin := ih hl
          have hmem : ∀ x ∈ m :: rest', m.time ≤ x.time := by
            intro x hx
            rcases List.mem_cons.mp hx with h1 | h1
            · rw [h1]
            · exact hmin x h1
          by_cases hle : a.time ≤ m.time
          · simp [hle] at h
            obtain ⟨h1, h2⟩ := h
            intro x hx
            rw [← h2] at hx
            have hxl : x ∈ m :: rest' := (popMin_perm hl).mem_iff.mp hx
            exact le_trans (h1 ▸ hle) (hmem x hxl)
          · simp [hle] at h
            obtain ⟨h1, h2⟩ := h
            intro x hx
            rw [← h2] at hx
            rcases List.mem_cons.mp hx with hx1 | hx1
            · rw [hx1, ← h1]; exact le_of_lt (lt_of_not_le hle)
            · rw [← h1]; exact hmin x hx1

theorem qMeasure_perm {q q' : List Event} (h : q.Perm q') : qMeasure q = qMeasure q' := by
  unfold qMeasure
  exact List.Perm.sum_eq (h.map _)

theorem handle_arrival_queue (rnd : String → ℚ) (s : Orchestrator) :
    (s.handle_order_arrival rnd).event_queue = s.event_queue ∨
    ∃ n, (s.handle_order_arrival rnd).event_queue =
      s.event_queue ++ [⟨s.current_time + 5, "order_completion", some n⟩] := by
  unfold Orchestrator.handle_order_arrival
  cases h : (collectCandidates s.current_time rnd s.attendants).2.min? with
  | none => left; simp [h]
  | some best => right; exact ⟨candName best, by simp [h]⟩

theorem qMeasure_append (q r : List Event) :
    qMeasure (q ++ r) = qMeasure q + qMeasure r := by
  unfold qMeasure; simp

theorem qMeasure_handle_arrival (rnd : String → ℚ) (s : Orchestrator) :
    qMeasure (s.handle_order_arrival rnd).event_queue ≤ qMeasure s.event_queue + 1 := by
  rcases handle_arrival_queue rnd s with h | ⟨n, h⟩
  · rw [h]; omega
  · rw [h, qMeasure_append]
    simp [qMeasure]

theorem qMeasure_pop {q : List Event} {e : Event} {rest : List Event}
    (h : popMin q = some (e, rest)) :
    qMeasure q = (if e.type == "order_arrival" then 2 else 1) + qMeasure rest := by
  have := qMeasure_perm (popMin_perm h)
  rw [this]
  simp [qMeasure]

theorem qMeasure_pop_arrival {q : List Event} {e : Event} {rest : List Event}
    (h : popMin q = some (e, rest)) (he : (e.type == "order_arrival") = true) :
    qMeasure q = 2 + qMeasure rest := by
  have h1 := qMeasure_pop h
  rw [he] at h1
  simpa using h1

theorem qMeasure_pop_lt {q : List Event} {e : Event} {rest : List Event}
    (h : popMin q = some (e, rest)) : qMeasure rest < qMeasure q := by
  have h1 := qMeasure_pop h
  by_cases he : (e.type == "order_arrival") = true <;> simp [he] at h1 <;> omega

theorem handle_completion_queue (s : Orchestrator) (n : String) :
    (s.handle_order_completion n).event_queue = s.event_queue := rfl

/-- The event loop, `Orchestrator.process_events`: pop the earliest event, advance
`current_time` to its time, dispatch on its type, repeat until the
queue is empty.  `rnd k` supplies the tiebreak keys for the `k`-th
arrival handled. -/
def Orchestrator.process_events (rnd : ℕ → String → ℚ) (k : ℕ) (s : Orchestrator) :
    Orchestrator :=
  match h : popMin s.event_queue with
  | none => s
  | some (e, rest) =>
      let s' : Orchestrator := { s with event_queue := rest, current_time := e.time }
      if e.type == "order_arrival" then
        Orchestrator.process_events rnd (k + 1) (s'.handle_order_arrival (rnd k))
      else if e.type == "order_completion" then
        Orchestrator.process_events rnd k (s'.handle_order_completion (e.data.getD ""))
      else
        Orchestrator.process_events rnd k s'
termination_by qMeasure s.event_queue
decreasing_by
  · rename_i harr
    have h1 := qMeasure_pop_arrival h harr
    have h2 := qMeasure_handle_arrival (rnd k)
      { s with event_queue := rest, current_time := e.time }
    simp only at h2
    omega
  · have h1 := qMeasure_pop_lt h
    rw [handle_completion_queue]
    simpa using h1
  · simpa using qMeasure_pop_lt h

/-- Observer of `process_events`: the events of the loop in the order
they are popped and handled.  Same recursion structure as
`Orchestrator.process_events`. -/
def Orchestrator.process_trace (rnd : ℕ → String → ℚ) (k : ℕ) (s : Orchestrator) :
    List Event :=
  match h : popMin s.event_queue with
  | none => []
  | some (e, rest) =>
      let s' : Orchestrator := { s with event_queue := rest, current_time := e.time }
      e ::
        (if e.type == "order_arrival" then
          Orchestrator.process_trace rnd (k + 1) (s'.handle_order_arrival (rnd k))
        else if e.type == "order_completion" then
          Orchestrator.process_trace rnd k (s'.handle_order_completion (e.data.getD ""))
        else
          Orchestrator.process_trace rnd k s')
termination_by qMeasure s.event_queue
decreasing_by
  · rename_i harr
    have h1 := qMeasure_pop_arrival h harr
    have h2 := qMeasure_handle_arrival (rnd k)
      { s with event_queue := rest, current_time := e.time }
    simp only at h2
    omega
  · have h1 := qMeasure_pop_lt h
    rw [handle_completion_queue]
    simpa using h1
  · simpa using qMeasure_pop_lt h

/-- States reachable from `Scheduler.new` by the public operations:
`submitArrival` (`add_order`), `setWorkerStatus`
(`update_attendant_status`, when it succeeds) and `run`
(`process_events`, under any tiebreak oracle). -/
inductive Reachable : Orchestrator → Prop
  | init (names : List String) : Reachable (Orchestrator.new names)
  | submit {s : Orchestrator} (t : ℚ) : Reachable s → Reachable (s.add_order t)
  | setStatus {s s' : Orchestrator} (name status : String) :
      Reachable s → s.update_attendant_status name status = some s' → Reachable s'
  | run {s : Orchestrator} (rnd : ℕ → String → ℚ) (k : ℕ) :
      Reachable s → Reachable (s.process_events rnd k)

/-- Arrival events counted in a queue. -/
def countArrivals (q : List Event) : ℕ :=
  q.countP (fun e => e.type == "order_arrival")

/-- C3: a worker holding exactly one order started at `t`, refreshed at
any `c ≥ t`, has `nextAvailable = t + 3` while `c < t + 3`, and
`nextAvailable = c` for every `c ≥ t + 3` (whether or not the order has
been evicted by the `t + 5 ≤ c` rule). -/
theorem single_order_cooldown (a : Attendant) (t c : ℚ)
    (hao : a.active_orders = [t]) (htc : t ≤ c) :
    (c < t + 3 → (a.update_state c).next_available = t + 3) ∧
    (t + 3 ≤ c → (a.update_state c).next_available = c) := by
  unfold Attendant.update_state
  rw [hao]
  by_cases h5 : t + 5 > c
  · simp only [List.filter, decide_eq_true_eq, h5, if_pos]
    constructor
    · intro h3
      simp [max_eq_right (le_of_lt h3)]
    · intro h3
      simp [max_eq_left h3]
  · simp only [List.filter, decide_eq_true_eq, h5, if_neg]
    constructor
    · intro h3
      exfalso; push_neg at h5; linarith
    · intro _
      simp

/-- Closed instance of `single_order_cooldown` at `t = 0`, `c = 1` and
`c = 4`. -/
theorem single_order_cooldown_witness :
    ((Attendant.update_state ⟨"A", [0], "active", 0⟩ 1).next_available = 0 + 3) ∧
    ((Attendant.update_state ⟨"A", [0], "active", 0⟩ 4).next_available = 4) :=
  ⟨(single_order_cooldown ⟨"A", [0], "active", 0⟩ 0 1 rfl (by norm_num)).1 (by norm_num),
   (single_order_cooldown ⟨"A", [0], "active", 0⟩ 0 4 rfl (by norm_num)).2 (by norm_num)⟩

/-- C4 as stated is false: refreshing `activeOrders = [0, 0]` at
`c = 10` evicts both orders and yields `nextAvailable = 10`, not
`max (0 + 5) (0 + 3) = 5`. -/
theorem double_order_gate_cex :
    ¬ ((Attendant.update_state ⟨"A", [0, 0], "active", 0⟩ 10).next_available
        = max ((0 : ℚ) + 5) (0 + 3)) := by
  norm_num [Attendant.update_state]

/-- C4 amended: a worker with `activeOrders = [t0, t1]`, `t1 ≥ t0`,
refreshed at any `c < t0 + 5` (so that neither order is evicted), has
`nextAvailable = max (t0 + 5) (t1 + 3)` exactly. -/
theorem double_order_gate (a : Attendant) (t0 t1 c : ℚ)
    (hao : a.active_orders = [t0, t1]) (h01 : t0 ≤ t1) (hc : c < t0 + 5) :
    (a.update_state c).next_available = max (t0 + 5) (t1 + 3) := by
  unfold Attendant.update_state
  rw [hao]
  have h0 : t0 + 5 > c := hc
  have h1 : t1 + 5 > c := by linarith
  simp [h0, h1]

/-- Closed instance of `double_order_gate` at `[0, 1]`, `c = 2`. -/
theorem double_order_gate_witness :
    (Attendant.update_state ⟨"A", [0, 1], "active", 0⟩ 2).next_available
      = max ((0 : ℚ) + 5) (1 + 3) :=
  double_order_gate ⟨"A", [0, 1], "active", 0⟩ 0 1 2 rfl (by norm_num) (by norm_num)

/-- C7: `refresh` is idempotent — a second `update_state` at the same
time changes nothing. -/
theorem refresh_idempotent (a : Attendant) (c : ℚ) :
    (a.update_state c).update_state c = a.update_state c := by
  cases a with
  | mk n ao st na =>
      simp only [Attendant.update_state, List.filter_filter]
      congr 1
      · apply List.filter_congr
        intro x _
        simp [Bool.and_self]
      · congr 1
        apply List.filter_congr
        intro x _
        simp [Bool.and_self]

/-- C5: `setWorkerStatus` fails (returns `none`, the
`UnknownWorkerError` of the spec) exactly when the name is not in the
roster; for a roster member it succeeds and applies the worker's
`set_status` at the scheduler's current simulated time. -/
theorem set_worker_status_spec (s : Orchestrator) (name st : String) :
    (s.update_attendant_status name st = none ↔ ∀ a ∈ s.attendants, a.name ≠ name) ∧
    ((∃ a ∈ s.attendants, a.name = name) →
      s.update_attendant_status name st = some
        { s with attendants := s.attendants.map (fun a =>
            if a.name == name then a.set_status st s.current_time else a) }) := by
  unfold Orchestrator.update_attendant_status
  by_cases h : s.attendants.any (fun a => a.name == name) = true
  · rw [List.any_eq_true] at h
    obtain ⟨a, ha, hn⟩ := h
    rw [beq_iff_eq] at hn
    constructor
    · simp only [List.any_eq_true]
      rw [if_pos ⟨a, ha, by simp [hn]⟩]
      constructor
      · intro hc; exact absurd hc (by simp)
      · intro hall; exact absurd hn (hall a ha)
    · intro _
      simp only [List.any_eq_true]
      rw [if_pos ⟨a, ha, by simp [hn]⟩]
  · constructor
    · simp only [h, if_neg]
      constructor
      · intro _ a ha hn
        exact h (List.any_eq_true.mpr ⟨a, ha, by simp [hn]⟩)
      · intro _; rfl
    · intro ⟨a, ha, hn⟩
      exact absurd (List.any_eq_true.mpr ⟨a, ha, by simp [hn]⟩) h

/-- Closed instance of `set_worker_status_spec`: `"Bob"` is unknown to
a roster containing only `"Alice"`, while `"Alice"` succeeds. -/
theorem set_worker_status_spec_witness :
    ((Orchestrator.new ["Alice"]).update_attendant_status "Bob" "inactive" = none) ∧
    ((Orchestrator.new ["Alice"]).update_attendant_status "Alice" "inactive" = some
      { Orchestrator.new ["Alice"] with
        attendants := (Orchestrator.new ["Alice"]).attendants.map (fun a =>
          if a.name == "Alice" then
            a.set_status "inactive" (Orchestrator.new ["Alice"]).current_time
          else a) }) :=
  ⟨(set_worker_status_spec (Orchestrator.new ["Alice"]) "Bob" "inactive").1.mpr
      (by norm_num [Orchestrator.new, dedupRoster, mkAttendant]; decide),
   (set_worker_status_spec (Orchestrator.new ["Alice"]) "Alice" "inactive").2
      ⟨mkAttendant "Alice", by norm_num [Orchestrator.new, dedupRoster, mkAttendant], rfl⟩⟩

/-- C8: a successful `setWorkerStatus` touches only the named worker's
`status` field when the new status is not `"active"` (no refresh:
`activeOrders` and `nextAvailable` stay put, as do all other workers);
the queue, current time and both counters are never touched; only for
status `"active"` is `update_state (refresh)` additionally applied. -/
theorem set_status_frame (s : Orchestrator) (name st : String) (s' : Orchestrator)
    (h : s.update_attendant_status name st = some s') :
    (st ≠ "active" →
      s'.attendants = s.attendants.map (fun a =>
        if a.name == name then { a with status := st } else a)) ∧
    (st = "active" →
      s'.attendants = s.attendants.map (fun a =>
        if a.name == name then
          (Attendant.update_state { a with status := st } s.current_time)
        else a)) ∧
    s'.event_queue = s.event_queue ∧ s'.current_time = s.current_time ∧
    s'.processed = s.processed ∧ s'.rejected = s.rejected := by
  unfold Orchestrator.update_attendant_status at h
  by_cases hney : s.attendants.any (fun a => a.name == name) = true
  · rw [if_pos hney] at h
    obtain rfl : _ = s' := Option.some.inj h
    refine ⟨?_, ?_, rfl, rfl, rfl, rfl⟩
    · intro hne
      simp only []
      apply List.map_congr_left
      intro a _
      by_cases hn : a.name == name
      · simp [hn, Attendant.set_status, (by simpa using hne : ¬ st = "active")]
      · simp [hn]
    · intro hact
      simp only []
      apply List.map_congr_left
      intro a _
      by_cases hn : a.name == name
      · simp [hn, Attendant.set_status, hact]
      · simp [hn]
  · rw [if_neg hney] at h
    exact absurd h (by simp)

/-- Closed instance of `set_status_frame`: deactivating `"Alice"` in a
fresh one-worker roster only flips her status field. -/
theorem set_status_frame_witness :
    ((Orchestrator.new ["Alice"]).update_attendant_status "Alice" "inactive" = some
        ⟨[⟨"Alice", [], "inactive", 0⟩], [], 0, 0, 0⟩) ∧
    (⟨[⟨"Alice", [], "inactive", 0⟩], [], 0, 0, 0⟩ : Orchestrator).attendants =
      (Orchestrator.new ["Alice"]).attendants.map (fun a =>
        if a.name == "Alice" then { a with status := "inactive" } else a) := by
  have hupd : (Orchestrator.new ["Alice"]).update_attendant_status "Alice" "inactive" = some
      ⟨[⟨"Alice", [], "inactive", 0⟩], [], 0, 0, 0⟩ := by
    norm_num [Orchestrator.new, dedupRoster, mkAttendant, Orchestrator.update_attendant_status,
      Attendant.set_status]
    exact fun h => absurd h (by decide)
  refine ⟨hupd, ?_⟩
  exact (set_status_frame (Orchestrator.new ["Alice"]) "Alice" "inactive"
    ⟨[⟨"Alice", [], "inactive", 0⟩], [], 0, 0, 0⟩ hupd).1 (by decide)

theorem min?_spec {α : Type} [LinearOrder α] {l : List α} {a : α} (h : l.min? = some a) :
    a ∈ l ∧ ∀ b ∈ l, a ≤ b :=
  ⟨List.min?_mem (fun x y => min_choice x y) h,
   fun b hb => ((List.le_min?_iff (fun x y z => le_min_iff) (x := a) h).mp le_rfl) b hb⟩

theorem cand_le_unpack {b x : Cand} (h : b ≤ x) :
    candLen b < candLen x ∨ (candLen b = candLen x ∧ candKey b ≤ candKey x) := by
  have h' : toLex (ofLex b) ≤ toLex (ofLex x) := h
  rcases (Prod.Lex.le_iff (ofLex b) (ofLex x)).mp h' with h1 | ⟨h1, _⟩
  · have h'' : toLex (ofLex (ofLex b).1) < toLex (ofLex (ofLex x).1) := h1
    rcases (Prod.Lex.lt_iff (ofLex (ofLex b).1) (ofLex (ofLex x).1)).mp h'' with h2 | ⟨h2, h3⟩
    · exact Or.inl h2
    · exact Or.inr ⟨h2, le_of_lt h3⟩
  · right
    have hlen : candLen b = candLen x := congrArg (fun p => (ofLex p).1) h1
    have hkey : candKey b = candKey x := congrArg (fun p => (ofLex p).2) h1
    exact ⟨hlen, le_of_eq hkey⟩

theorem collect_fst (c : ℚ) (rnd : String → ℚ) (l : List Attendant) :
    (collectCandidates c rnd l).1 = l.map (fun a => a.update_state c) := by
  induction l with
  | nil => rfl
  | cons a rest ih =>
      simp only [collectCandidates]
      by_cases h : (a.update_state c).can_accept c <;> simp [h, ih]

theorem collect_mem_cand {c : ℚ} {rnd : String → ℚ} :
    ∀ {l : List Attendant} {x : Cand}, x ∈ (collectCandidates c rnd l).2 →
      ∃ a ∈ (collectCandidates c rnd l).1, a.can_accept c = true ∧ a.name = candName x ∧
        a.active_orders.length = candLen x ∧ rnd a.name = candKey x := by
  intro l
  induction l with
  | nil => intro x hx; simp [collectCandidates] at hx
  | cons a rest ih =>
      intro x hx
      simp only [collectCandidates] at hx ⊢
      by_cases h : (a.update_state c).can_accept c
      · simp only [h, if_pos] at hx ⊢
        rcases List.mem_cons.mp hx with h1 | h1
        · refine ⟨a.update_state c, List.mem_cons_self _ _, h, ?_⟩
          rw [h1]
          exact ⟨rfl, rfl, rfl⟩
        · obtain ⟨b, hb, hprop⟩ := ih h1
          exact ⟨b, List.mem_cons_of_mem _ hb, hprop⟩
      · simp only [h, if_neg, Bool.false_eq_true, not_false_iff] at hx ⊢
        obtain ⟨b, hb, hprop⟩ := ih hx
        exact ⟨b, List.mem_cons_of_mem _ hb, hprop⟩

/-- C2: whenever the candidate set of an arrival is non-empty, the
`min` of the priority tuples picks a genuine candidate (a refreshed
worker passing `canAccept`) whose pair `(len(activeOrders),
tiebreakKey)` is lexicographically minimal among all candidates — in
particular no candidate has strictly fewer active orders — and the
order is started on exactly the worker carrying that name. -/
theorem arrival_assigns_min_loaded (rnd : String → ℚ) (s : Orchestrator)
    (hne : (collectCandidates s.current_time rnd s.attendants).2 ≠ []) :
    ∃ best ∈ (collectCandidates s.current_time rnd s.attendants).2,
      (collectCandidates s.current_time rnd s.attendants).2.min? = some best ∧
      (∃ a ∈ (collectCandidates s.current_time rnd s.attendants).1,
        a.can_accept s.current_time = true ∧ a.name = candName best ∧
        a.active_orders.length = candLen best) ∧
      (∀ x ∈ (collectCandidates s.current_time rnd s.attendants).2,
        candLen best < candLen x ∨ (candLen best = candLen x ∧ candKey best ≤ candKey x)) ∧
      (∀ x ∈ (collectCandidates s.current_time rnd s.attendants).2, candLen best ≤ candLen x) ∧
      (s.handle_order_arrival rnd).attendants =
        (collectCandidates s.current_time rnd s.attendants).1.map (fun a =>
          if a.name == candName best then a.start_order s.current_time else a) := by
  obtain ⟨best, hmin⟩ : ∃ b, (collectCandidates s.current_time rnd s.attendants).2.min? = some b := by
    cases hm : (collectCandidates s.current_time rnd s.attendants).2.min? with
    | none => exact absurd (List.min?_eq_none_iff.mp hm) hne
    | some b => exact ⟨b, rfl⟩
  obtain ⟨hbmem, hble⟩ := min?_spec hmin
  refine ⟨best, hbmem, hmin, ?_, ?_, ?_, ?_⟩
  · obtain ⟨a, ha, hacc, hname, hlen, _⟩ := collect_mem_cand hbmem
    exact ⟨a, ha, hacc, hname, hlen⟩
  · intro x hx
    exact cand_le_unpack (hble x hx)
  · intro x hx
    rcases cand_le_unpack (hble x hx) with h1 | ⟨h1, _⟩
    · exact le_of_lt h1
    · exact le_of_eq h1
  · unfold Orchestrator.handle_order_arrival
    simp only [hmin]

/-- Closed instance of `arrival_assigns_min_loaded`: a fresh
single-worker roster at time 0 has a non-empty candidate set. -/
theorem arrival_assigns_min_loaded_witness :
    ∃ best ∈ (collectCandidates (Orchestrator.new ["Alice"]).current_time (fun _ => 0)
        (Orchestrator.new ["Alice"]).attendants).2,
      (collectCandidates (Orchestrator.new ["Alice"]).current_time (fun _ => 0)
        (Orchestrator.new ["Alice"]).attendants).2.min? = some best ∧
      (∃ a ∈ (collectCandidates (Orchestrator.new ["Alice"]).current_time (fun _ => 0)
          (Orchestrator.new ["Alice"]).attendants).1,
        a.can_accept (Orchestrator.new ["Alice"]).current_time = true ∧
        a.name = candName best ∧ a.active_orders.length = candLen best) ∧
      (∀ x ∈ (collectCandidates (Orchestrator.new ["Alice"]).current_time (fun _ => 0)
          (Orchestrator.new ["Alice"]).attendants).2,
        candLen best < candLen x ∨ (candLen best = candLen x ∧ candKey best ≤ candKey x)) ∧
      (∀ x ∈ (collectCandidates (Orchestrator.new ["Alice"]).current_time (fun _ => 0)
          (Orchestrator.new ["Alice"]).attendants).2, candLen best ≤ candLen x) ∧
      ((Orchestrator.new ["Alice"]).handle_order_arrival (fun _ => 0)).attendants =
        (collectCandidates (Orchestrator.new ["Alice"]).current_time (fun _ => 0)
          (Orchestrator.new ["Alice"]).attendants).1.map (fun a =>
            if a.name == candName best then
              a.start_order (Orchestrator.new ["Alice"]).current_time
            else a) :=
  arrival_assigns_min_loaded (fun _ => 0) (Orchestrator.new ["Alice"])
    (by norm_num [Orchestrator.new, dedupRoster, mkAttendant, collectCandidates,
      Attendant.update_state, Attendant.can_accept])

theorem process_events_none {rnd : ℕ → String → ℚ} {k : ℕ} {s : Orchestrator}
    (h : popMin s.event_queue = none) : s.process_events rnd k = s := by
  rw [Orchestrator.process_events.eq_def, h]

theorem process_events_some {rnd : ℕ → String → ℚ} {k : ℕ} {s : Orchestrator}
    {e : Event} {rest : List Event} (h : popMin s.event_queue = some (e, rest)) :
    s.process_events rnd k =
      (if e.type == "order_arrival" then
        Orchestrator.process_events rnd (k + 1)
          (Orchestrator.handle_order_arrival (rnd k)
            { s with event_queue := rest, current_time := e.time })
      else if e.type == "order_completion" then
        Orchestrator.process_events rnd k
          (Orchestrator.handle_order_completion
            { s with event_queue := rest, current_time := e.time } (e.data.getD ""))
      else
        Orchestrator.process_events rnd k
          { s with event_queue := rest, current_time := e.time }) := by
  rw [Orchestrator.process_events.eq_def, h]

/-- The well-formedness carried through every reachable scheduler
state: roster names are unique (they are Python dict keys) and no
worker ever holds more than two active orders. -/
def RosterOK (l : List Attendant) : Prop :=
  (l.map (fun a => a.name)).Nodup ∧ ∀ a ∈ l, a.active_orders.length ≤ 2

theorem can_accept_len {a : Attendant} {c : ℚ} (h : a.can_accept c = true) :
    a.active_orders.length < 2 := by
  unfold Attendant.can_accept at h
  by_cases hs : a.status ≠ "active"
  · simp [hs] at h
  · simp [hs] at h
    exact h.2

theorem update_state_name (a : Attendant) (c : ℚ) : (a.update_state c).name = a.name := rfl

theorem start_order_name (a : Attendant) (t : ℚ) : (a.start_order t).name = a.name := rfl

theorem set_status_name (a : Attendant) (st : String) (c : ℚ) :
    (a.set_status st c).name = a.name := by
  unfold Attendant.set_status
  by_cases h : st == "active"
  · simp [h, update_state_name]
  · simp [h]

theorem update_state_len (a : Attendant) (c : ℚ) :
    (a.update_state c).active_orders.length ≤ a.active_orders.length :=
  List.length_filter_le _ _

theorem start_order_len (a : Attendant) (t : ℚ) :
    (a.start_order t).active_orders.length = a.active_orders.length + 1 := by
  unfold Attendant.start_order
  simp [List.length_mergeSort]

theorem set_status_len (a : Attendant) (st : String) (c : ℚ) :
    (a.set_status st c).active_orders.length ≤ a.active_orders.length := by
  unfold Attendant.set_status
  by_cases h : st == "active"
  · simp only [h, if_pos]
    exact update_state_len _ _
  · simp [h]

theorem mem_dedupRoster : ∀ {l : List Attendant} {seen : List String} {a : Attendant},
    a ∈ dedupRoster l seen → a ∈ l := by
  intro l
  induction l with
  | nil => intro seen a h; simp [dedupRoster] at h
  | cons b rest ih =>
      intro seen a h
      unfold dedupRoster at h
      by_cases hb : b.name ∈ seen
      · rw [if_pos hb] at h
        exact List.mem_cons_of_mem _ (ih h)
      · rw [if_neg hb] at h
        rcases List.mem_cons.mp h with h1 | h1
        · rw [h1]; exact List.mem_cons_self _ _
        · exact List.mem_cons_of_mem _ (ih h1)

theorem dedupRoster_nodup : ∀ (l : List Attendant) (seen : List String),
    ((dedupRoster l seen).map (fun a => a.name)).Nodup ∧
    ∀ a ∈ dedupRoster l seen, a.name ∉ seen := by
  intro l
  induction l with
  | nil => intro seen; simp [dedupRoster]
  | cons b rest ih =>
      intro seen
      unfold dedupRoster
      by_cases hb : b.name ∈ seen
      · rw [if_pos hb]
        exact ih seen
      · rw [if_neg hb]
        obtain ⟨hnd, hout⟩ := ih (b.name :: seen)
        constructor
        · simp only [List.map_cons, List.nodup_cons]
          refine ⟨?_, hnd⟩
          intro hc
          obtain ⟨a, ha, heq⟩ := List.mem_map.mp hc
          exact (hout a ha) (heq ▸ List.mem_cons_self _ _)
        · intro a ha
          rcases List.mem_cons.mp ha with h1 | h1
          · rw [h1]; exact hb
          · intro hc
            exact (hout a h1) (List.mem_cons_of_mem _ hc)

theorem rosterOK_new (names : List String) : RosterOK (Orchestrator.new names).attendants := by
  constructor
  · exact (dedupRoster_nodup (names.map mkAttendant) []).1
  · intro a ha
    have hmem := mem_dedupRoster ha
    obtain ⟨n, _, heq⟩ := List.mem_map.mp hmem
    rw [← heq]
    simp [mkAttendant]

theorem roster_names_map {l : List Attendant} {g : Attendant → Attendant}
    (hg : ∀ a ∈ l, (g a).name = a.name) :
    (l.map g).map (fun a => a.name) = l.map (fun a => a.name) := by
  rw [List.map_map]
  exact List.map_congr_left hg

theorem rosterOK_update_status {s : Orchestrator} {name st : String} {s' : Orchestrator}
    (h : s.update_attendant_status name st = some s') (hok : RosterOK s.attendants) :
    RosterOK s'.attendants := by
  unfold Orchestrator.update_attendant_status at h
  by_cases hb : s.attendants.any (fun a => a.name == name) = true
  · rw [if_pos hb] at h
    obtain rfl : _ = s' := Option.some.inj h
    constructor
    · rw [roster_names_map]
      · exact hok.1
      · intro a _
        by_cases hn : a.name == name <;> simp [hn, set_status_name]
    · intro b hb'
      obtain ⟨a, ha, heq⟩ := List.mem_map.mp hb'
      by_cases hn : a.name == name
      · rw [if_pos hn] at heq
        rw [← heq]
        exact le_trans (set_status_len a st s.current_time) (hok.2 a ha)
      · rw [if_neg hn] at heq
        rw [← heq]
        exact hok.2 a ha
  · rw [if_neg hb] at h
    exact absurd h (by simp)

theorem rosterOK_handle_completion (s : Orchestrator) (n : String)
    (hok : RosterOK s.attendants) :
    RosterOK (s.handle_order_completion n).attendants := by
  unfold Orchestrator.handle_order_completion
  constructor
  · rw [roster_names_map]
    · exact hok.1
    · intro a _
      by_cases hn : a.name == n <;> simp [hn, update_state_name]
  · intro b hb'
    obtain ⟨a, ha, heq⟩ := List.mem_map.mp hb'
    by_cases hn : a.name == n
    · rw [if_pos hn] at heq
      rw [← heq]
      exact le_trans (update_state_len a s.current_time) (hok.2 a ha)
    · rw [if_neg hn] at heq
      rw [← heq]
      exact hok.2 a ha

theorem rosterOK_collect (c : ℚ) (rnd : String → ℚ) {l : List Attendant}
    (hok : RosterOK l) : RosterOK (collectCandidates c rnd l).1 := by
  rw [collect_fst]
  constructor
  · rw [roster_names_map]
    · exact hok.1
    · intro a _; exact update_state_name a c
  · intro b hb
    obtain ⟨a, ha, heq⟩ := List.mem_map.mp hb
    rw [← heq]
    exact le_trans (update_state_len a c) (hok.2 a ha)

theorem rosterOK_handle_arrival (rnd : String → ℚ) (s : Orchestrator)
    (hok : RosterOK s.attendants) :
    RosterOK (s.handle_order_arrival rnd).attendants := by
  have hcol := rosterOK_collect s.current_time rnd hok
  unfold Orchestrator.handle_order_arrival
  cases hm : (collectCandidates s.current_time rnd s.attendants).2.min? with
  | none => simp only [hm]; exact hcol
  | some best =>
      simp only [hm]
      obtain ⟨hbmem, _⟩ := min?_spec hm
      obtain ⟨astar, hastar, hacc, hname, _, _⟩ := collect_mem_cand hbmem
      constructor
      · rw [roster_names_map]
        · exact hcol.1
        · intro a _
          by_cases hn : a.name == candName best <;> simp [hn, start_order_name]
      · intro b hb'
        obtain ⟨a, ha, heq⟩ := List.mem_map.mp hb'
        by_cases hn : a.name == candName best
        · rw [if_pos hn] at heq
          rw [← heq, start_order_len]
          have haeq : a = astar := by
            apply List.inj_on_of_nodup_map hcol.1 ha hastar
            rw [beq_iff_eq] at hn
            rw [hn, hname]
          rw [haeq]
          exact can_accept_len hacc
        · rw [if_neg hn] at heq
          rw [← heq]
          exact hcol.2 a ha

theorem rosterOK_process_events (rnd : ℕ → String → ℚ) (k : ℕ) (s : Orchestrator)
    (hok : RosterOK s.attendants) : RosterOK (s.process_events rnd k).attendants := by
  refine Orchestrator.process_events.induct rnd
    (fun k s => RosterOK s.attendants → RosterOK (s.process_events rnd k).attendants)
    ?_ ?_ ?_ ?_ k s hok
  · intro k s hnone hok'
    rw [process_events_none hnone]
    exact hok'
  · intro k s e rest hpop s' harr ih hok'
    rw [process_events_some hpop, if_pos harr]
    exact ih (rosterOK_handle_arrival (rnd k) s' hok')
  · intro k s e rest hpop s' harr hcomp ih hok'
    rw [process_events_some hpop, if_neg harr, if_pos hcomp]
    exact ih (rosterOK_handle_completion s' (e.data.getD "") hok')
  · intro k s e rest hpop s' harr hcomp ih hok'
    rw [process_events_some hpop, if_neg harr, if_neg hcomp]
    exact ih hok'

/-- C1: in every scheduler state reachable by the public operations
(`new`, `submitArrival`, `setWorkerStatus`, `run`), every worker in
the roster holds at most two active orders. -/
theorem capacity_invariant {s : Orchestrator} (h : Reachable s) :
    ∀ a ∈ s.attendants, a.active_orders.length ≤ 2 := by
  suffices hok : RosterOK s.attendants from hok.2
  induction h with
  | init names => exact rosterOK_new names
  | submit t _ ih => exact ih
  | setStatus name status _ hupd ih => exact rosterOK_update_status hupd ih
  | run rnd k _ ih => exact rosterOK_process_events rnd k _ ih

/-- Closed instance of `capacity_invariant` at a concrete reachable
state and a concrete roster member. -/
theorem capacity_invariant_witness :
    (mkAttendant "Alice").active_orders.length ≤ 2 :=
  capacity_invariant (Reachable.init ["Alice"]) (mkAttendant "Alice")
    (by simp [Orchestrator.new, dedupRoster])

theorem process_trace_none {rnd : ℕ → String → ℚ} {k : ℕ} {s : Orchestrator}
    (h : popMin s.event_queue = none) : s.process_trace rnd k = [] := by
  rw [Orchestrator.process_trace.eq_def, h]

theorem process_trace_some {rnd : ℕ → String → ℚ} {k : ℕ} {s : Orchestrator}
    {e : Event} {rest : List Event} (h : popMin s.event_queue = some (e, rest)) :
    s.process_trace rnd k =
      e :: (if e.type == "order_arrival" then
        Orchestrator.process_trace rnd (k + 1)
          (Orchestrator.handle_order_arrival (rnd k)
            { s with event_queue := rest, current_time := e.time })
      else if e.type == "order_completion" then
        Orchestrator.process_trace rnd k
          (Orchestrator.handle_order_completion
            { s with event_queue := rest, current_time := e.time } (e.data.getD ""))
      else
        Orchestrator.process_trace rnd k
          { s with event_queue := rest, current_time := e.time }) := by
  rw [Orchestrator.process_trace.eq_def, h]

theorem next_queue_lb_arrival {s : Orchestrator} {e : Event} {rest : List Event}
    (hpop : popMin s.event_queue = some (e, rest)) (f : String → ℚ) :
    ∀ q ∈ (Orchestrator.handle_order_arrival f
        { s with event_queue := rest, current_time := e.time }).event_queue,
      e.time ≤ q.time := by
  intro q hq
  rcases handle_arrival_queue f { s with event_queue := rest, current_time := e.time }
    with h | ⟨n, h⟩
  · rw [h] at hq
    exact popMin_le hpop q hq
  · rw [h] at hq
    rcases List.mem_append.mp hq with h1 | h1
    · exact popMin_le hpop q h1
    · simp only [List.mem_singleton] at h1
      rw [h1]
      simp only []
      linarith

theorem trace_lb (rnd : ℕ → String → ℚ) (k : ℕ) (s : Orchestrator) :
    ∀ lb : ℚ, (∀ q ∈ s.event_queue, lb ≤ q.time) →
      ∀ x ∈ s.process_trace rnd k, lb ≤ x.time := by
  refine Orchestrator.process_trace.induct rnd
    (fun k s => ∀ lb : ℚ, (∀ q ∈ s.event_queue, lb ≤ q.time) →
      ∀ x ∈ s.process_trace rnd k, lb ≤ x.time) ?_ ?_ k s
  · intro k s hnone lb _ x hx
    rw [process_trace_none hnone] at hx
    simp at hx
  · intro k s e rest hpop s' ih_arr ih_comp ih_else lb hlb x hx
    rw [process_trace_some hpop] at hx
    have hetime : lb ≤ e.time := by
      have hemem : e ∈ s.event_queue := (popMin_perm hpop).mem_iff.mpr (List.mem_cons_self _ _)
      exact hlb e hemem
    have hrest : ∀ q ∈ rest, lb ≤ q.time := by
      intro q hq
      exact hlb q ((popMin_perm hpop).mem_iff.mpr (List.mem_cons_of_mem _ hq))
    rcases List.mem_cons.mp hx with h1 | h1
    · rw [h1]; exact hetime
    · by_cases harr : (e.type == "order_arrival") = true
      · rw [if_pos harr] at h1
        refine ih_arr harr lb ?_ x h1
        intro q hq
        exact le_trans hetime (next_queue_lb_arrival hpop (rnd k) q hq)
      · rw [if_neg harr] at h1
        by_cases hcomp : (e.type == "order_completion") = true
        · rw [if_pos hcomp] at h1
          refine ih_comp lb ?_ x h1
          rw [handle_completion_queue]
          exact hrest
        · rw [if_neg hcomp] at h1
          exact ih_else lb hrest x h1

/-- C6: the times of the events successively popped and processed by
the event loop form a non-decreasing sequence, even though accepted
arrivals push completion events into the queue mid-loop. -/
theorem monotonic_time (rnd : ℕ → String → ℚ) (k : ℕ) (s : Orchestrator) :
    List.Chain' (fun e1 e2 => e1.time ≤ e2.time) (s.process_trace rnd k) := by
  refine Orchestrator.process_trace.induct rnd
    (fun k s => List.Chain' (fun e1 e2 => e1.time ≤ e2.time) (s.process_trace rnd k))
    ?_ ?_ k s
  · intro k s hnone
    rw [process_trace_none hnone]
    exact List.chain'_nil
  · intro k s e rest hpop s' ih_arr ih_comp ih_else
    rw [process_trace_some hpop, List.chain'_cons']
    constructor
    · intro y hy
      have hy' := List.mem_of_mem_head? hy
      by_cases harr : (e.type == "order_arrival") = true
      · rw [if_pos harr] at hy'
        exact trace_lb rnd (k + 1) _ e.time (next_queue_lb_arrival hpop (rnd k)) y hy'
      · rw [if_neg harr] at hy'
        by_cases hcomp : (e.type == "order_completion") = true
        · rw [if_pos hcomp] at hy'
          refine trace_lb rnd k _ e.time ?_ y hy'
          rw [handle_completion_queue]
          exact popMin_le hpop
        · rw [if_neg hcomp] at hy'
          exact trace_lb rnd k _ e.time (popMin_le hpop) y hy'
    · by_cases harr : (e.type == "order_arrival") = true
      · rw [if_pos harr]
        exact ih_arr harr
      · rw [if_neg harr]
        by_cases hcomp : (e.type == "order_completion") = true
        · rw [if_pos hcomp]
          exact ih_comp
        · rw [if_neg hcomp]
          exact ih_else

theorem process_events_drains (rnd : ℕ → String → ℚ) (k : ℕ) (s : Orchestrator) :
    (s.process_events rnd k).event_queue = [] := by
  refine Orchestrator.process_events.induct rnd
    (fun k s => (s.process_events rnd k).event_queue = []) ?_ ?_ ?_ ?_ k s
  · intro k s hnone
    rw [process_events_none hnone]
    exact popMin_eq_none hnone
  · intro k s e rest hpop s' harr ih
    rw [process_events_some hpop, if_pos harr]
    exact ih
  · intro k s e rest hpop s' harr hcomp ih
    rw [process_events_some hpop, if_neg harr, if_pos hcomp]
    exact ih
  · intro k s e rest hpop s' harr hcomp ih
    rw [process_events_some hpop, if_neg harr, if_neg hcomp]
    exact ih

/-- C9: the event loop — a total function here, so it terminates on
every finite queue — always ends with an empty queue and returns the
state unchanged when the queue is already empty (it stops exactly when
the queue empties); each arrival pushes at most one completion event
and completions push nothing. -/
theorem run_terminates_on_empty (rnd : ℕ → String → ℚ) (k : ℕ) (s : Orchestrator) :
    (s.process_events rnd k).event_queue = [] ∧
    (s.event_queue = [] → s.process_events rnd k = s) ∧
    (∀ n, (s.handle_order_completion n).event_queue = s.event_queue) ∧
    (∀ f, (s.handle_order_arrival f).event_queue = s.event_queue ∨
      ∃ n, (s.handle_order_arrival f).event_queue =
        s.event_queue ++ [⟨s.current_time + 5, "order_completion", some n⟩]) := by
  refine ⟨process_events_drains rnd k s, ?_, handle_completion_queue s, fun f => handle_arrival_queue f s⟩
  intro hq
  apply process_events_none
  rw [hq]
  rfl

/-- Closed instance of `run_terminates_on_empty`: a run drains the
queue, and a run on an empty queue is the identity. -/
theorem run_terminates_on_empty_witness :
    ((((Orchestrator.new ["Alice"]).add_order 0).add_order 7).process_events
        (fun _ _ => 0) 0).event_queue = [] ∧
    (Orchestrator.new ["Alice"]).process_events (fun _ _ => 0) 0 = Orchestrator.new ["Alice"] :=
  ⟨(run_terminates_on_empty (fun _ _ => 0) 0
      (((Orchestrator.new ["Alice"]).add_order 0).add_order 7)).1,
   (run_terminates_on_empty (fun _ _ => 0) 0 (Orchestrator.new ["Alice"])).2.1 rfl⟩

theorem countArrivals_append (q r : List Event) :
    countArrivals (q ++ r) = countArrivals q + countArrivals r := by
  unfold countArrivals
  simp [List.countP_append]

theorem countArrivals_pop_arrival {q : List Event} {e : Event} {rest : List Event}
    (hpop : popMin q = some (e, rest)) (harr : (e.type == "order_arrival") = true) :
    countArrivals q = countArrivals rest + 1 := by
  unfold countArrivals
  rw [(popMin_perm hpop).countP_eq]
  simp [harr]

theorem countArrivals_pop_other {q : List Event} {e : Event} {rest : List Event}
    (hpop : popMin q = some (e, rest)) (harr : ¬ (e.type == "order_arrival") = true) :
    countArrivals q = countArrivals rest := by
  unfold countArrivals
  rw [(popMin_perm hpop).countP_eq]
  simp [harr]

theorem countArrivals_handle_arrival (f : String → ℚ) (s : Orchestrator) :
    countArrivals (s.handle_order_arrival f).event_queue = countArrivals s.event_queue := by
  rcases handle_arrival_queue f s with h | ⟨n, h⟩
  · rw [h]
  · rw [h, countArrivals_append]
    simp [countArrivals]

theorem handle_completion_processed (s : Orchestrator) (n : String) :
    (s.handle_order_completion n).processed = s.processed := rfl

theorem handle_completion_rejected (s : Orchestrator) (n : String) :
    (s.handle_order_completion n).rejected = s.rejected := rfl

theorem handle_arrival_counters (f : String → ℚ) (s : Orchestrator) :
    ((s.handle_order_arrival f).processed = s.processed + 1 ∧
      (s.handle_order_arrival f).rejected = s.rejected) ∨
    ((s.handle_order_arrival f).processed = s.processed ∧
      (s.handle_order_arrival f).rejected = s.rejected + 1) := by
  unfold Orchestrator.handle_order_arrival
  cases hm : (collectCandidates s.current_time f s.attendants).2.min? with
  | some best => left; simp [hm]
  | none => right; simp [hm]

theorem counters_run (rnd : ℕ → String → ℚ) (k : ℕ) (s : Orchestrator) :
    (s.process_events rnd k).processed + (s.process_events rnd k).rejected =
      s.processed + s.rejected + countArrivals s.event_queue ∧
    s.processed ≤ (s.process_events rnd k).processed ∧
    s.rejected ≤ (s.process_events rnd k).rejected := by
  refine Orchestrator.process_events.induct rnd
    (fun k s =>
      (s.process_events rnd k).processed + (s.process_events rnd k).rejected =
        s.processed + s.rejected + countArrivals s.event_queue ∧
      s.processed ≤ (s.process_events rnd k).processed ∧
      s.rejected ≤ (s.process_events rnd k).rejected) ?_ ?_ ?_ ?_ k s
  · intro k s hnone
    rw [process_events_none hnone, popMin_eq_none hnone]
    simp [countArrivals]
  · intro k s e rest hpop s' harr ih
    rw [process_events_some hpop, if_pos harr]
    obtain ⟨ihsum, ihp, ihr⟩ := ih
    have hs' : s' = { s with event_queue := rest, current_time := e.time } := rfl
    rw [hs'] at ihsum ihp ihr
    have hcnt := countArrivals_handle_arrival (rnd k)
      { s with event_queue := rest, current_time := e.time }
    have hquot := countArrivals_pop_arrival hpop harr
    rcases handle_arrival_counters (rnd k)
      { s with event_queue := rest, current_time := e.time } with ⟨hp, hr⟩ | ⟨hp, hr⟩ <;>
      (simp only at hp hr hcnt; rw [hcnt, hp, hr] at ihsum;
       rw [hp] at ihp; rw [hr] at ihr;
       exact ⟨by omega, by omega, by omega⟩)
  · intro k s e rest hpop s' harr hcomp ih
    rw [process_events_some hpop, if_neg harr, if_pos hcomp]
    obtain ⟨ihsum, ihp, ihr⟩ := ih
    have hquot := countArrivals_pop_other hpop harr
    have ihsum' :
        (Orchestrator.process_events rnd k
          (Orchestrator.handle_order_completion
            { s with event_queue := rest, current_time := e.time } (e.data.getD ""))).processed +
        (Orchestrator.process_events rnd k
          (Orchestrator.handle_order_completion
            { s with event_queue := rest, current_time := e.time } (e.data.getD ""))).rejected =
        s.processed + s.rejected + countArrivals rest := ihsum
    have ihp' : s.processed ≤ (Orchestrator.process_events rnd k
        (Orchestrator.handle_order_completion
          { s with event_queue := rest, current_time := e.time } (e.data.getD ""))).processed := ihp
    have ihr' : s.rejected ≤ (Orchestrator.process_events rnd k
        (Orchestrator.handle_order_completion
          { s with event_queue := rest, current_time := e.time } (e.data.getD ""))).rejected := ihr
    exact ⟨by omega, ihp', ihr'⟩
  · intro k s e rest hpop s' harr hcomp ih
    rw [process_events_some hpop, if_neg harr, if_neg hcomp]
    obtain ⟨ihsum, ihp, ihr⟩ := ih
    have hquot := countArrivals_pop_other hpop harr
    have ihsum' :
        (Orchestrator.process_events rnd k
          { s with event_queue := rest, current_time := e.time }).processed +
        (Orchestrator.process_events rnd k
          { s with event_queue := rest, current_time := e.time }).rejected =
        s.processed + s.rejected + countArrivals rest := ihsum
    have ihp' : s.processed ≤ (Orchestrator.process_events rnd k
        { s with event_queue := rest, current_time := e.time }).processed := ihp
    have ihr' : s.rejected ≤ (Orchestrator.process_events rnd k
        { s with event_queue := rest, current_time := e.time }).rejected := ihr
    exact ⟨by omega, ihp', ihr'⟩

/-- C10: every processed arrival increments exactly one of the two
counters by exactly 1 (`processed` on acceptance, `rejected` on
rejection); no other operation (`submitArrival`, `setWorkerStatus`,
completion handling) touches either counter; hence after a run
`processed + rejected` has grown by exactly the number of arrival
events popped (all arrivals popped were in the starting queue, since
the loop only pushes completions), and both counters are
non-decreasing across the run. -/
theorem arrival_counter_accounting (rnd : ℕ → String → ℚ) (k : ℕ) (s : Orchestrator) :
    (s.process_events rnd k).processed + (s.process_events rnd k).rejected =
      s.processed + s.rejected + countArrivals s.event_queue ∧
    s.processed ≤ (s.process_events rnd k).processed ∧
    s.rejected ≤ (s.process_events rnd k).rejected ∧
    (∀ f, ((s.handle_order_arrival f).processed = s.processed + 1 ∧
        (s.handle_order_arrival f).rejected = s.rejected) ∨
      ((s.handle_order_arrival f).processed = s.processed ∧
        (s.handle_order_arrival f).rejected = s.rejected + 1)) ∧
    (∀ t, (s.add_order t).processed = s.processed ∧ (s.add_order t).rejected = s.rejected) ∧
    (∀ n st s', s.update_attendant_status n st = some s' →
      s'.processed = s.processed ∧ s'.rejected = s.rejected) ∧
    (∀ n, (s.handle_order_completion n).processed = s.processed ∧
      (s.handle_order_completion n).rejected = s.rejected) := by
  obtain ⟨h1, h2, h3⟩ := counters_run rnd k s
  refine ⟨h1, h2, h3, fun f => handle_arrival_counters f s, fun t => ⟨rfl, rfl⟩, ?_,
    fun n => ⟨rfl, rfl⟩⟩
  intro n st s' h
  unfold Orchestrator.update_attendant_status at h
  by_cases hb : s.attendants.any (fun a => a.name == n) = true
  · rw [if_pos hb] at h
    obtain rfl : _ = s' := Option.some.inj h
    exact ⟨rfl, rfl⟩
  · rw [if_neg hb] at h
    exact absurd h (by simp)

/-- Closed instance of `arrival_counter_accounting`: two arrivals on a
one-worker roster; the implication about `setWorkerStatus` discharged
at a successful status update. -/
theorem arrival_counter_accounting_witness :
    ((((Orchestrator.new ["Alice"]).add_order 0).add_order 1).process_events
        (fun _ _ => 0) 0).processed +
      ((((Orchestrator.new ["Alice"]).add_order 0).add_order 1).process_events
        (fun _ _ => 0) 0).rejected =
      (((Orchestrator.new ["Alice"]).add_order 0).add_order 1).processed +
      (((Orchestrator.new ["Alice"]).add_order 0).add_order 1).rejected +
      countArrivals (((Orchestrator.new ["Alice"]).add_order 0).add_order 1).event_queue ∧
    (⟨[⟨"Alice", [], "inactive", 0⟩], [], 0, 0, 0⟩ : Orchestrator).processed =
      (Orchestrator.new ["Alice"]).processed :=
  ⟨(arrival_counter_accounting (fun _ _ => 0) 0
      (((Orchestrator.new ["Alice"]).add_order 0).add_order 1)).1,
   ((arrival_counter_accounting (fun _ _ => 0) 0 (Orchestrator.new ["Alice"])).2.2.2.2.2.1
      "Alice" "inactive" ⟨[⟨"Alice", [], "inactive", 0⟩], [], 0, 0, 0⟩
      (by norm_num [Orchestrator.new, dedupRoster, mkAttendant,
        Orchestrator.update_attendant_status, Attendant.set_status]
          ; exact fun h => absurd h (by decide))).1⟩

end OrderSim
